import Mathlib

/-!
This file is a verification development for the Based-Numbers repository.

It contains a shallow embedding of the two Rust source files:

* `src/lib.rs` — `TinyMap<K, V, N>`, a tiny associative container whose
  backing storage is a `TinyVec` of key-value pairs kept sorted by key.
  The inline/heap split of the backing `TinyVec` affects only allocation,
  never the stored sequence of pairs, so a map is modelled by that pair
  sequence, a `List (Nat × Nat)` (the sieve instantiates `K = usize`,
  `V = u32`; machine integers are modelled as `Nat`, overflow being an
  explicit non-goal of the design).

* `src/main.rs` — the incremental factorization sieve inside `main`.
  The per-number `Vec` tables are modelled as total functions from the
  number index (the loop writes slot `i` only at iteration `i`); the
  fixed-size histogram array `[0; 10]` is modelled as a `List Nat` of
  length 10 with a bounds-checked update; the `unwrap()` of the previous
  record is modelled in the `Option` monad.  A sieve run therefore has
  type `Option SieveState`, and `none` means the Rust program panics.

Theorems about the embedded program follow the definitions.
-/

namespace BasedNum

/-- The result of `slice::binary_search_by_key` on the backing storage of a
`TinyMap`: `Sum.inl i` models `Ok(i)` (the key sits at index `i`) and
`Sum.inr i` models `Err(i)` (the key is absent and `i` is its sorted
insertion point).  The standard-library search is specified, and used by
`TinyMap`, only on key-sorted slices; this embedding realises that contract
by a structural scan returning exactly the result binary search gives on
every key-sorted slice. -/
def binarySearchByKey : List (Nat × Nat) → Nat → Sum Nat Nat
  | [], _ => Sum.inr 0
  | (k, _) :: rest, key =>
    if key < k then Sum.inr 0
    else if key = k then Sum.inl 0
    else
      match binarySearchByKey rest key with
      | Sum.inl i => Sum.inl (i + 1)
      | Sum.inr i => Sum.inr (i + 1)

namespace TinyMap

/-- `TinyMap::new` (`src/lib.rs` lines 12-16): the empty map. -/
def new : List (Nat × Nat) := []

/-- `TinyMap::len` (`src/lib.rs` line 30). -/
def len (m : List (Nat × Nat)) : Nat := m.length

/-- `TinyMap::values` (`src/lib.rs` lines 40-42): the values in key order. -/
def values (m : List (Nat × Nat)) : List Nat := m.map Prod.snd

/-- `TinyMap::insert` (`src/lib.rs` lines 65-73): binary-search the key; on
`Ok(i)` replace the value stored at `i` and return the old value, on
`Err(i)` insert the pair at index `i` and return `None`. -/
def insert (m : List (Nat × Nat)) (key v : Nat) : List (Nat × Nat) × Option Nat :=
  match binarySearchByKey m key with
  | Sum.inl i => (m.set i ((m.getD i (0, 0)).1, v), some (m.getD i (0, 0)).2)
  | Sum.inr i => (m.insertIdx i (key, v), none)

/-- The `TinyMapEntry` handle (`src/lib.rs` lines 86-97): `occupied` wraps
the index of the existing pair (standing for the mutable reference into the
backing storage), `vacant` records the missing key together with the
insertion index computed by the binary search. -/
inductive Entry where
  | occupied (idx : Nat)
  | vacant (key : Nat) (idx : Nat)

/-- `TinyMap::entry` (`src/lib.rs` lines 49-58). -/
def entry (m : List (Nat × Nat)) (key : Nat) : Entry :=
  match binarySearchByKey m key with
  | Sum.inl i => .occupied i
  | Sum.inr i => .vacant key i

/-- `TinyMapEntry::and_modify(f).or_insert(dflt)` (`src/lib.rs` lines
101-117) applied to the entry of `key` in `m`, the combination the sieve
uses: if the key is occupied apply `f` to its value in place, otherwise
insert `(key, dflt)` at the recorded index. -/
def entryAndModifyOrInsert (m : List (Nat × Nat)) (key : Nat) (f : Nat → Nat) (dflt : Nat) :
    List (Nat × Nat) :=
  match entry m key with
  | .occupied i => m.set i ((m.getD i (0, 0)).1, f (m.getD i (0, 0)).2)
  | .vacant k i => m.insertIdx i (k, dflt)

/-- The `Extend` implementation (`src/lib.rs` lines 76-82): it delegates to
`TinyVec::extend`, which appends the incoming pairs to the backing vector
as they come. -/
def extend (m ps : List (Nat × Nat)) : List (Nat × Nat) := m ++ ps

/-- `TinyMap::shrink_to_fit` (`src/lib.rs` line 35) changes only the
capacity of the backing storage, never the stored pairs: on the contents it
is the identity. -/
def shrink_to_fit (m : List (Nat × Nat)) : List (Nat × Nat) := m

/-- The `TinyMap` well-formedness invariant: the backing pairs are sorted
by strictly increasing key (in particular no two pairs share a key). -/
def sortedKeys (m : List (Nat × Nat)) : Prop :=
  List.Pairwise (fun a b : Nat × Nat => a.1 < b.1) m

theorem sortedKeys_nil : sortedKeys [] := List.Pairwise.nil

/-- Unfolding equation of the binary-search scan on a nonempty list. -/
theorem binarySearchByKey_cons (k v key : Nat) (t : List (Nat × Nat)) :
    binarySearchByKey ((k, v) :: t) key =
      if key < k then Sum.inr 0
      else if key = k then Sum.inl 0
      else
        match binarySearchByKey t key with
        | Sum.inl i => Sum.inl (i + 1)
        | Sum.inr i => Sum.inr (i + 1) := rfl

theorem sortedKeys_cons {kv : Nat × Nat} {t : List (Nat × Nat)} :
    sortedKeys (kv :: t) ↔ (∀ b ∈ t, kv.1 < b.1) ∧ sortedKeys t := by
  unfold sortedKeys
  exact List.pairwise_cons

/-- Unfolding equation: the entry of any key in the empty map is vacant, so
`and_modify` does nothing and `or_insert` prepends. -/
theorem eAMOI_nil (key : Nat) (f : Nat → Nat) (d : Nat) :
    entryAndModifyOrInsert [] key f d = [(key, d)] := rfl

/-- Unfolding equation: a key smaller than the head key is vacant with
insertion index 0. -/
theorem eAMOI_cons_lt {key k : Nat} (h : key < k) (v : Nat) (t : List (Nat × Nat))
    (f : Nat → Nat) (d : Nat) :
    entryAndModifyOrInsert ((k, v) :: t) key f d = (key, d) :: (k, v) :: t := by
  simp only [entryAndModifyOrInsert, entry, binarySearchByKey_cons, if_pos h]
  rfl

/-- Unfolding equation: the head key itself is occupied at index 0. -/
theorem eAMOI_cons_eq (k v : Nat) (t : List (Nat × Nat)) (f : Nat → Nat) (d : Nat) :
    entryAndModifyOrInsert ((k, v) :: t) k f d = (k, f v) :: t := by
  simp only [entryAndModifyOrInsert, entry, binarySearchByKey_cons, Nat.lt_irrefl, if_neg,
    if_pos rfl, ite_self, ite_false]
  rfl

/-- Unfolding equation: a key greater than the head key is resolved in the
tail, with all indices shifted by one. -/
theorem eAMOI_cons_gt {key k : Nat} (h : k < key) (v : Nat) (t : List (Nat × Nat))
    (f : Nat → Nat) (d : Nat) :
    entryAndModifyOrInsert ((k, v) :: t) key f d =
      (k, v) :: entryAndModifyOrInsert t key f d := by
  have h1 : ¬ key < k := by omega
  have h2 : ¬ key = k := by omega
  simp only [entryAndModifyOrInsert, entry, binarySearchByKey_cons, if_neg h1, if_neg h2]
  match hbs : binarySearchByKey t key with
  | Sum.inl i => simp [hbs]
  | Sum.inr i => simp [hbs]

/-- A key absent from the head position of a sorted list and smaller than
the head key is absent from the whole list. -/
theorem not_mem_of_lt_head {k v key : Nat} {t : List (Nat × Nat)}
    (h : sortedKeys ((k, v) :: t)) (hlt : key < k) : ∀ w, (key, w) ∉ (k, v) :: t := by
  intro w hw
  rcases List.mem_cons.1 hw with h1 | h1
  · exact absurd (congrArg Prod.fst h1) (by simp; omega)
  · have := (sortedKeys_cons.1 h).1 _ h1
    simp at this
    omega

/-- In a sorted list the head key does not reappear in the tail. -/
theorem head_key_not_mem_tail {k v : Nat} {t : List (Nat × Nat)}
    (h : sortedKeys ((k, v) :: t)) : ∀ w, (k, w) ∉ t := by
  intro w hw
  have := (sortedKeys_cons.1 h).1 _ hw
  simp at this

/-- Every key present after `and_modify`/`or_insert` is either the touched
key or a key of the original list. -/
theorem mem_eAMOI_key : ∀ {l : List (Nat × Nat)} {key a b : Nat} {f : Nat → Nat} {d : Nat},
    (a, b) ∈ entryAndModifyOrInsert l key f d → a = key ∨ ∃ w, (a, w) ∈ l := by
  intro l
  induction l with
  | nil =>
    intro key a b f d h
    rw [eAMOI_nil] at h
    simp at h
    exact Or.inl h.1
  | cons kv t ih =>
    intro key a b f d h
    obtain ⟨k, v⟩ := kv
    rcases Nat.lt_trichotomy key k with hc | hc | hc
    · rw [eAMOI_cons_lt hc] at h
      rcases List.mem_cons.1 h with h1 | h1
      · exact Or.inl (congrArg Prod.fst h1)
      · exact Or.inr ⟨b, h1⟩
    · subst hc
      rw [eAMOI_cons_eq] at h
      rcases List.mem_cons.1 h with h1 | h1
      · exact Or.inl (congrArg Prod.fst h1)
      · exact Or.inr ⟨b, List.mem_cons_of_mem _ h1⟩
    · rw [eAMOI_cons_gt hc] at h
      rcases List.mem_cons.1 h with h1 | h1
      · exact Or.inr ⟨v, by rw [show a = k from congrArg Prod.fst h1]; exact List.mem_cons_self _ _⟩
      · rcases ih h1 with h2 | ⟨w, h2⟩
        · exact Or.inl h2
        · exact Or.inr ⟨w, List.mem_cons_of_mem _ h2⟩

/-- `and_modify`/`or_insert` preserves the sortedness invariant. -/
theorem eAMOI_sorted : ∀ {l : List (Nat × Nat)} {key : Nat} {f : Nat → Nat} {d : Nat},
    sortedKeys l → sortedKeys (entryAndModifyOrInsert l key f d) := by
  intro l
  induction l with
  | nil =>
    intro key f d _
    rw [eAMOI_nil]
    exact List.pairwise_singleton _ _
  | cons kv t ih =>
    intro key f d h
    obtain ⟨k, v⟩ := kv
    rcases Nat.lt_trichotomy key k with hc | hc | hc
    · rw [eAMOI_cons_lt hc]
      refine sortedKeys_cons.2 ⟨?_, h⟩
      intro b hb
      rcases List.mem_cons.1 hb with h1 | h1
      · simp [h1]; omega
      · have := (sortedKeys_cons.1 h).1 _ h1
        simp at this ⊢
        omega
    · subst hc
      rw [eAMOI_cons_eq]
      refine sortedKeys_cons.2 ⟨?_, (sortedKeys_cons.1 h).2⟩
      intro b hb
      exact (sortedKeys_cons.1 h).1 _ hb
    · rw [eAMOI_cons_gt hc]
      refine sortedKeys_cons.2 ⟨?_, ih (sortedKeys_cons.1 h).2⟩
      intro b hb
      rcases mem_eAMOI_key hb with h1 | ⟨w, h1⟩
      · simpa [h1] using hc
      · exact (sortedKeys_cons.1 h).1 (b.1, w) h1

/-- Full membership description of `and_modify(f).or_insert(d)` on a sorted
map: the touched key now holds `f` of its old value (or `d` if it was
absent), every other pair is untouched. -/
theorem mem_eAMOI : ∀ {l : List (Nat × Nat)}, sortedKeys l →
    ∀ {key : Nat} {f : Nat → Nat} {d a b : Nat},
    ((a, b) ∈ entryAndModifyOrInsert l key f d ↔
      (a = key ∧ ((∃ w, (key, w) ∈ l ∧ b = f w) ∨ ((∀ w, (key, w) ∉ l) ∧ b = d)))
        ∨ (a ≠ key ∧ (a, b) ∈ l)) := by
  intro l
  induction l with
  | nil =>
    intro _ key f d a b
    rw [eAMOI_nil]
    constructor
    · intro h
      simp at h
      exact Or.inl ⟨h.1, Or.inr ⟨by simp, h.2⟩⟩
    · intro h
      rcases h with ⟨rfl, h⟩ | ⟨_, h⟩
      · rcases h with ⟨w, hw, _⟩ | ⟨_, rfl⟩
        · exact absurd hw (List.not_mem_nil _)
        · exact List.mem_singleton.2 rfl
      · exact absurd h (List.not_mem_nil _)
  | cons kv t ih =>
    intro hs key f d a b
    obtain ⟨k, v⟩ := kv
    have hst : sortedKeys t := (sortedKeys_cons.1 hs).2
    rcases Nat.lt_trichotomy key k with hc | hc | hc
    · rw [eAMOI_cons_lt hc]
      have habs := not_mem_of_lt_head hs hc
      constructor
      · intro h
        rcases List.mem_cons.1 h with h1 | h1
        · have ha : a = key := congrArg Prod.fst h1
          have hb : b = d := congrArg Prod.snd h1
          exact Or.inl ⟨ha, Or.inr ⟨habs, hb⟩⟩
        · refine Or.inr ⟨fun hak => habs b (hak ▸ h1), h1⟩
      · intro h
        rcases h with ⟨rfl, h⟩ | ⟨hne, h⟩
        · rcases h with ⟨w, hw, _⟩ | ⟨_, rfl⟩
          · exact absurd hw (habs w)
          · exact List.mem_cons_self _ _
        · exact List.mem_cons_of_mem _ h
    · subst hc
      rw [eAMOI_cons_eq]
      have hnt := head_key_not_mem_tail hs
      constructor
      · intro h
        rcases List.mem_cons.1 h with h1 | h1
        · have ha : a = key := congrArg Prod.fst h1
          have hb : b = f v := congrArg Prod.snd h1
          exact Or.inl ⟨ha, Or.inl ⟨v, List.mem_cons_self _ _, hb⟩⟩
        · refine Or.inr ⟨fun hak => hnt b (hak ▸ h1), List.mem_cons_of_mem _ h1⟩
      · intro h
        rcases h with ⟨rfl, h⟩ | ⟨hne, h⟩
        · rcases h with ⟨w, hw, rfl⟩ | ⟨hno, _⟩
          · rcases List.mem_cons.1 hw with h2 | h2
            · have hw2 : w = v := congrArg Prod.snd h2
              subst hw2
              exact List.mem_cons_self _ _
            · exact absurd h2 (hnt w)
          · exact absurd (List.mem_cons_self (a, v) t) (hno v)
        · rcases List.mem_cons.1 h with h1 | h1
          · exact absurd (congrArg Prod.fst h1) hne
          · exact List.mem_cons_of_mem _ h1
    · rw [eAMOI_cons_gt hc]
      have hkne : k ≠ key := by omega
      constructor
      · intro h
        rcases List.mem_cons.1 h with h1 | h1
        · have ha : a = k := congrArg Prod.fst h1
          refine Or.inr ⟨ha ▸ hkne, h1 ▸ List.mem_cons_self _ _⟩
        · rcases (ih hst).1 h1 with ⟨rfl, h2⟩ | ⟨hne, h2⟩
          · refine Or.inl ⟨rfl, ?_⟩
            rcases h2 with ⟨w, hw, rfl⟩ | ⟨hno, rfl⟩
            · exact Or.inl ⟨w, List.mem_cons_of_mem _ hw, rfl⟩
            · refine Or.inr ⟨?_, rfl⟩
              intro w hw
              rcases List.mem_cons.1 hw with h3 | h3
              · exact hkne (congrArg Prod.fst h3).symm
              · exact hno w h3
          · exact Or.inr ⟨hne, List.mem_cons_of_mem _ h2⟩
      · intro h
        rcases h with ⟨rfl, h⟩ | ⟨hne, h⟩
        · refine List.mem_cons_of_mem _ ((ih hst).2 (Or.inl ⟨rfl, ?_⟩))
          rcases h with ⟨w, hw, rfl⟩ | ⟨hno, rfl⟩
          · rcases List.mem_cons.1 hw with h2 | h2
            · exact absurd (congrArg Prod.fst h2).symm hkne
            · exact Or.inl ⟨w, h2, rfl⟩
          · exact Or.inr ⟨fun w hw => hno w (List.mem_cons_of_mem _ hw), rfl⟩
        · rcases List.mem_cons.1 h with h1 | h1
          · exact h1 ▸ List.mem_cons_self _ _
          · exact List.mem_cons_of_mem _ ((ih hst).2 (Or.inr ⟨hne, h1⟩))

/-- Two key-sorted association lists with the same pairs are equal. -/
theorem sortedKeys_ext {l1 l2 : List (Nat × Nat)} (h1 : sortedKeys l1) (h2 : sortedKeys l2)
    (h : ∀ kv : Nat × Nat, kv ∈ l1 ↔ kv ∈ l2) : l1 = l2 := by
  have hn1 : l1.Nodup := h1.imp fun hab heq => absurd (heq ▸ hab) (Nat.lt_irrefl _)
  have hn2 : l2.Nodup := h2.imp fun hab heq => absurd (heq ▸ hab) (Nat.lt_irrefl _)
  haveI : IsAntisymm (Nat × Nat) (fun a b : Nat × Nat => a.1 < b.1) :=
    ⟨fun a b hab hba => absurd (Nat.lt_trans hab hba) (Nat.lt_irrefl _)⟩
  exact List.eq_of_perm_of_sorted ((List.perm_ext_iff_of_nodup hn1 hn2).2 h) h1 h2

end TinyMap

/-- The per-number record `NumProperties` (`src/main.rs` lines 26-32). -/
structure NumProperties where
  number : Nat
  num_factors : Nat
  num_prime_factors : Nat
  basedness : Nat
deriving Repr, DecidableEq

/-- The mutable state of the sieve loop in `main` (`src/main.rs` lines
49-54): the two per-number tables (number-indexed `Vec`s, modelled as total
functions that are `none` resp. empty outside the slots written so far),
the primes found so far, the basedness record list, and the ten-bucket
histogram `[0; 10]`. -/
structure SieveState where
  num_properties : Nat → Option NumProperties
  prime_factors : Nat → List (Nat × Nat)
  primes : List Nat
  based : List (Nat × Nat)
  num_prime_factors_histogram : List Nat

/-- `num_prime_factors_histogram[idx] += 1` (`src/main.rs` line 105): a
bounds-checked increment on the fixed-size bucket array; an index outside
the array is the Rust panic, modelled as `none`. -/
def histIncr (h : List Nat) (idx : Nat) : Option (List Nat) :=
  if idx < h.length then some (h.set idx (h.getD idx 0 + 1)) else none

/-- The prime-factor search of the sieve (`src/main.rs` lines 71-76): scan
the primes found so far, in ascending order, as long as `p * p ≤ i`, for
the first `p` dividing `i`. -/
def findFactor (primes : List Nat) (i : Nat) : Option Nat :=
  (primes.takeWhile fun p => decide (p * p ≤ i)).find? fun p => i % p == 0

/-- One iteration of the sieve loop (`src/main.rs` lines 68-118) at number
`i`: search the known primes `p` with `p * p ≤ i` for a divisor of `i`; in
the composite case clone the factor map of `i / p` and bump the exponent of
`p`, taking the product of (exponent + 1) as the factor count; in the prime
case insert `{i: 1}` into the (still empty) slot `i` and push `i` onto the
primes list, with factor count 2.  Then shrink storage (a no-op on
contents), bump the histogram at (number of entries - 1), read the record
of `i - 1` (`unwrap`), derive the basedness, store the record of `i`, and
extend the basedness record list when a new record is set.  The result is
`none` exactly when the Rust code panics.

The branch on the result of the prime-factor search (`src/main.rs`
lines 78-100), producing the factor map of `i`, the factor count, and the
updated primes list: in the composite case clone the map of `i / p` and
bump the exponent of `p`, taking the product of (exponent + 1) over the
values as the factor count; in the prime case insert `{i: 1}` into the
(still untouched) slot of `i` and push `i` onto the primes list, with
factor count 2. -/
def stepBranch (s : SieveState) (i : Nat) : List (Nat × Nat) × Nat × List Nat :=
  match findFactor s.primes i with
  | some p =>
    let pfi := TinyMap.entryAndModifyOrInsert (s.prime_factors (i / p)) p (fun k => k + 1) 1
    (pfi, ((TinyMap.values pfi).map fun k => k + 1).prod, s.primes)
  | none => ((TinyMap.insert (s.prime_factors i) i 1).1, 2, s.primes ++ [i])

def step (s : SieveState) (i : Nat) : Option SieveState :=
  let branch := stepBranch s i
  let pfi := TinyMap.shrink_to_fit branch.1
  let num_factors := branch.2.1
  let num_prime_factors := pfi.length
  (histIncr s.num_prime_factors_histogram (num_prime_factors - 1)).bind fun hist =>
    (s.num_properties (i - 1)).bind fun prev =>
      let basedness := num_prime_factors * prev.num_factors
      some
        { num_properties :=
            Function.update s.num_properties i
              (some ⟨i, num_factors, num_prime_factors, basedness⟩)
          prime_factors := Function.update s.prime_factors i pfi
          primes := branch.2.2
          based :=
            if (s.based.getLast?.map Prod.snd).getD 0 < basedness then
              s.based ++ [(i, basedness)]
            else s.based
          num_prime_factors_histogram := hist }

/-- The state just before the loop (`src/main.rs` lines 49-66): empty
tables and lists, the all-zero histogram, and the pre-seeded record
`num_properties[1] = Some {number: 1, num_factors: 1, num_prime_factors: 0,
basedness: 0}`. -/
def initState : SieveState where
  num_properties := Function.update (fun _ => none) 1 (some ⟨1, 1, 0, 0⟩)
  prime_factors := fun _ => TinyMap.new
  primes := []
  based := []
  num_prime_factors_histogram := List.replicate 10 0

/-- The loop `for i in 2..n` (`src/main.rs` line 68) as structural
recursion on the number of remaining iterations, so that concrete runs
compute by reflexivity: `sieveLoop fuel i s` runs the body on
`i, i + 1, ..., i + fuel - 1`. -/
def sieveLoop : Nat → Nat → SieveState → Option SieveState
  | 0, _, s => some s
  | fuel + 1, i, s => (step s i).bind (sieveLoop fuel (i + 1))

/-- The whole sieve for a given maximum (`args.max_num`): with
`n = max + 1` the loop `for i in 2..n` performs `max - 1` iterations
starting at `i = 2`. -/
def sieve (max : Nat) : Option SieveState := sieveLoop (max - 1) 2 initState

section MathSide

/-- d(n): the number of positive divisors of `n`. -/
def numDivisors (n : Nat) : Nat := n.divisors.card

/-- The number of distinct prime factors of `n`. -/
def numPrimeFactors (n : Nat) : Nat := n.primeFactors.card

/-- The basedness score of `n`: (distinct prime factors of `n`) times
(divisor count of `n - 1`); this evaluates to 0 at `n = 1`. -/
def basednessOf (n : Nat) : Nat := numPrimeFactors n * numDivisors (n - 1)

/-- The reference per-number record for `n`. -/
def propsOf (n : Nat) : NumProperties := ⟨n, numDivisors n, numPrimeFactors n, basednessOf n⟩

/-- The distinct prime factors of `n` as an ascending list. -/
def factSupport (n : Nat) : List Nat :=
  (List.range (n + 1)).filter fun p => decide (p ∈ n.primeFactors)

/-- The factorization of `n` as the key-sorted association list of
(prime, exponent) pairs: the reference contents of the `TinyMap` the sieve
builds for `n`. -/
def factList (n : Nat) : List (Nat × Nat) :=
  (factSupport n).map fun p => (p, n.factorization p)

/-- All primes up to and including `n`, ascending. -/
def primesUpTo (n : Nat) : List Nat := (List.range (n + 1)).filter fun p => decide p.Prime

theorem mem_factSupport {n q : Nat} : q ∈ factSupport n ↔ q ∈ n.primeFactors := by
  unfold factSupport
  simp only [List.mem_filter, List.mem_range, decide_eq_true_eq]
  constructor
  · exact fun h => h.2
  · intro h
    exact ⟨Nat.lt_succ_of_le (Nat.le_of_mem_primeFactors h), h⟩

theorem factSupport_nodup (n : Nat) : (factSupport n).Nodup :=
  (List.nodup_range _).filter _

theorem factSupport_toFinset (n : Nat) : (factSupport n).toFinset = n.primeFactors := by
  ext q
  simp [List.mem_toFinset, mem_factSupport]

theorem factSupport_length (n : Nat) : (factSupport n).length = n.primeFactors.card := by
  rw [← factSupport_toFinset n, List.toFinset_card_of_nodup (factSupport_nodup n)]

theorem factSupport_pairwise (n : Nat) : List.Pairwise (· < ·) (factSupport n) :=
  (List.pairwise_lt_range _).filter _

theorem factList_sortedKeys (n : Nat) : TinyMap.sortedKeys (factList n) := by
  unfold factList TinyMap.sortedKeys
  rw [List.pairwise_map]
  exact factSupport_pairwise n

theorem factList_length (n : Nat) : (factList n).length = numPrimeFactors n := by
  unfold factList numPrimeFactors
  rw [List.length_map, factSupport_length]

theorem mem_factList {n p e : Nat} :
    (p, e) ∈ factList n ↔ p ∈ n.primeFactors ∧ e = n.factorization p := by
  unfold factList
  simp only [List.mem_map]
  constructor
  · rintro ⟨q, hq, hqe⟩
    have hp : q = p := congrArg Prod.fst hqe
    subst hp
    exact ⟨mem_factSupport.1 hq, (congrArg Prod.snd hqe).symm⟩
  · rintro ⟨hp, rfl⟩
    exact ⟨p, mem_factSupport.2 hp, rfl⟩

/-- Products over the factorization list become products over
`n.primeFactors`. -/
theorem factList_map_prod (n : Nat) (g : Nat → Nat → Nat) :
    ((factList n).map fun kv => g kv.1 kv.2).prod =
      ∏ p ∈ n.primeFactors, g p (n.factorization p) := by
  unfold factList
  rw [List.map_map, ← factSupport_toFinset n,
    List.prod_toFinset _ (factSupport_nodup n)]
  rfl

/-- The factorization list of a prime is the single pair (p, 1). -/
theorem factList_prime {p : Nat} (hp : p.Prime) : factList p = [(p, 1)] := by
  refine TinyMap.sortedKeys_ext (factList_sortedKeys p) (List.pairwise_singleton _ _) ?_
  rintro ⟨a, b⟩
  rw [mem_factList, hp.primeFactors]
  constructor
  · rintro ⟨ha, rfl⟩
    rw [Finset.mem_singleton] at ha
    subst ha
    simp [hp.factorization, Finsupp.single_eq_same]
  · intro h
    rw [List.mem_singleton] at h
    have ha : a = p := congrArg Prod.fst h
    have hb : b = 1 := congrArg Prod.snd h
    subst ha
    subst hb
    simp [hp.factorization, Finsupp.single_eq_same]

/-- Divisor-count lemma: the product of (exponent + 1) over the
factorization list of `n` is the number of positive divisors of `n`. -/
theorem factList_divisor_count {n : Nat} (hn : n ≠ 0) :
    ((TinyMap.values (factList n)).map fun k => k + 1).prod = numDivisors n := by
  unfold TinyMap.values numDivisors
  rw [List.map_map, Nat.card_divisors hn]
  exact factList_map_prod n fun _ b => b + 1

/-- Round-trip lemma: multiplying p ^ e over the factorization list of `n`
reconstructs `n`. -/
theorem factList_reconstruct {n : Nat} (hn : n ≠ 0) :
    ((factList n).map fun kv => kv.1 ^ kv.2).prod = n := by
  rw [factList_map_prod n fun a b => a ^ b]
  conv_rhs => rw [← Nat.factorization_prod_pow_eq_self hn]
  rw [Finsupp.prod]
  exact Finset.prod_congr (by rw [Nat.support_factorization]) fun _ _ => rfl

/-- The factorization list of `n ≥ 2` is nonempty. -/
theorem factList_ne_nil {n : Nat} (hn : 2 ≤ n) : factList n ≠ [] := by
  have h1 : (factList n).length = numPrimeFactors n := factList_length n
  have h2 : 0 < numPrimeFactors n :=
    Finset.card_pos.2 (Nat.nonempty_primeFactors.2 (by omega))
  intro h
  rw [h] at h1
  simp at h1
  omega

/-- Every exponent stored in a factorization list is at least 1. -/
theorem factList_exp_pos {n p e : Nat} (h : (p, e) ∈ factList n) : 1 ≤ e := by
  obtain ⟨hp, rfl⟩ := mem_factList.1 h
  have hne : n.factorization p ≠ 0 := by
    rw [← Nat.support_factorization] at hp
    exact Finsupp.mem_support_iff.1 hp
  omega

/-- Central step lemma: bumping the entry of a prime divisor `p` inside the
factorization list of `i / p` (which is what the composite branch of the
sieve does to the cloned map) yields exactly the factorization list of
`i`. -/
theorem factList_step {i p : Nat} (hi : 2 ≤ i) (hp : p.Prime) (hdvd : p ∣ i) :
    TinyMap.entryAndModifyOrInsert (factList (i / p)) p (fun k => k + 1) 1 = factList i := by
  have hi0 : i ≠ 0 := by omega
  have hp0 : p ≠ 0 := hp.pos.ne'
  have hm0 : i / p ≠ 0 :=
    (Nat.div_pos (Nat.le_of_dvd (by omega) hdvd) hp.pos).ne'
  have him : p * (i / p) = i := Nat.mul_div_cancel' hdvd
  have hfa : ∀ a, i.factorization a = (if p = a then 1 else 0) + (i / p).factorization a := by
    intro a
    conv_lhs => rw [← him]
    rw [Nat.factorization_mul hp0 hm0, hp.factorization]
    simp [Finsupp.add_apply, Finsupp.single_apply]
  have hpf : i.primeFactors = insert p (i / p).primeFactors := by
    conv_lhs => rw [← him]
    rw [Nat.primeFactors_mul hp0 hm0, hp.primeFactors, ← Finset.insert_eq]
  refine TinyMap.sortedKeys_ext
    (TinyMap.eAMOI_sorted (factList_sortedKeys _)) (factList_sortedKeys i) ?_
  rintro ⟨a, b⟩
  rw [TinyMap.mem_eAMOI (factList_sortedKeys _)]
  conv_rhs => rw [mem_factList]
  rw [hpf, hfa a]
  by_cases ha : a = p
  · subst ha
    rw [if_pos rfl]
    constructor
    · rintro (⟨-, h⟩ | ⟨hne, -⟩)
      · refine ⟨Finset.mem_insert_self _ _, ?_⟩
        rcases h with ⟨w, hw, rfl⟩ | ⟨hno, rfl⟩
        · obtain ⟨hmem, rfl⟩ := mem_factList.1 hw
          omega
        · have hfz : (i / a).factorization a = 0 := by
            by_contra hne0
            have hmem : a ∈ (i / a).primeFactors := by
              rw [← Nat.support_factorization]
              exact Finsupp.mem_support_iff.2 hne0
            exact hno _ (mem_factList.2 ⟨hmem, rfl⟩)
          omega
      · exact absurd rfl hne
    · rintro ⟨-, rfl⟩
      refine Or.inl ⟨rfl, ?_⟩
      by_cases hpm : a ∈ (i / a).primeFactors
      · exact Or.inl ⟨(i / a).factorization a, mem_factList.2 ⟨hpm, rfl⟩, by omega⟩
      · have hfz : (i / a).factorization a = 0 := by
          rw [← Nat.support_factorization] at hpm
          exact Finsupp.not_mem_support_iff.1 hpm
        refine Or.inr ⟨?_, by omega⟩
        intro w hw
        exact hpm (mem_factList.1 hw).1
  · rw [if_neg fun h => ha h.symm, Nat.zero_add]
    constructor
    · rintro (⟨h1, -⟩ | ⟨-, hmem⟩)
      · exact absurd h1 ha
      · obtain ⟨h2, rfl⟩ := mem_factList.1 hmem
        exact ⟨Finset.mem_insert_of_mem h2, rfl⟩
    · rintro ⟨hmem, rfl⟩
      rcases Finset.mem_insert.1 hmem with h1 | h1
      · exact absurd h1 ha
      · exact Or.inr ⟨ha, mem_factList.2 ⟨h1, rfl⟩⟩

theorem mem_primesUpTo {n q : Nat} : q ∈ primesUpTo n ↔ q.Prime ∧ q ≤ n := by
  unfold primesUpTo
  simp only [List.mem_filter, List.mem_range, decide_eq_true_eq, Nat.lt_succ_iff]
  exact ⟨fun h => ⟨h.2, h.1⟩, fun h => ⟨h.2, h.1⟩⟩

theorem primesUpTo_pairwise (n : Nat) : List.Pairwise (· < ·) (primesUpTo n) :=
  (List.pairwise_lt_range _).filter _

theorem primesUpTo_succ (n : Nat) :
    primesUpTo (n + 1) =
      primesUpTo n ++ if (n + 1).Prime then [n + 1] else [] := by
  unfold primesUpTo
  rw [List.range_succ, List.filter_append]
  congr 1
  by_cases h : (n + 1).Prime <;> simp [List.filter_cons, h]

/-- Membership in a `takeWhile` prefix of a strictly ascending list, for a
predicate that is downward closed up to the member. -/
theorem mem_takeWhile_of_sorted : ∀ {l : List Nat} {a : Nat} {pred : Nat → Bool},
    List.Pairwise (· < ·) l → a ∈ l → (∀ b, b ≤ a → pred b = true) →
      a ∈ l.takeWhile pred := by
  intro l
  induction l with
  | nil =>
    intro a pred _ ha _
    cases ha
  | cons x t ih =>
    intro a pred hs ha hmono
    rcases List.mem_cons.1 ha with rfl | ha
    · rw [List.takeWhile_cons_of_pos (hmono _ (Nat.le_refl _))]
      exact List.mem_cons_self _ _
    · have hxa : x < a := (List.pairwise_cons.1 hs).1 _ ha
      rw [List.takeWhile_cons_of_pos (hmono x (Nat.le_of_lt hxa))]
      exact List.mem_cons_of_mem _ (ih (List.pairwise_cons.1 hs).2 ha hmono)

/-- When `i` is prime, the search finds nothing among primes below `i`. -/
theorem findFactor_none {primes : List Nat} {i : Nat} (hi : i.Prime)
    (hall : ∀ q ∈ primes, q.Prime ∧ q < i) : findFactor primes i = none := by
  unfold findFactor
  rw [List.find?_eq_none]
  intro x hx
  have hxp : x ∈ primes := (List.takeWhile_sublist _).subset hx
  obtain ⟨hxprime, hxlt⟩ := hall x hxp
  simp only [beq_iff_eq]
  intro hmod
  have hdvd : x ∣ i := Nat.dvd_of_mod_eq_zero hmod
  rcases (Nat.Prime.eq_one_or_self_of_dvd hi x hdvd) with h1 | h1
  · exact hxprime.one_lt.ne' h1
  · omega

/-- When `2 ≤ i = m + 1` is composite, the search over the primes up to `m`
finds a prime `p` dividing `i` with `p * p ≤ i`. -/
theorem findFactor_composite {m i : Nat} (hi : i = m + 1) (h2 : 2 ≤ i)
    (hnp : ¬ i.Prime) :
    ∃ p, findFactor (primesUpTo m) i = some p ∧ p.Prime ∧ p ∣ i ∧ p * p ≤ i := by
  have hq : i.minFac.Prime := Nat.minFac_prime (by omega)
  have hqd : i.minFac ∣ i := Nat.minFac_dvd i
  have hqs : i.minFac * i.minFac ≤ i := by
    have := Nat.minFac_sq_le_self (by omega) hnp
    rwa [Nat.pow_two] at this
  have hqlt : i.minFac < i := by
    rcases Nat.lt_or_ge i.minFac i with h | h
    · exact h
    · exfalso
      have : i * i ≤ i := Nat.le_trans (Nat.mul_le_mul h h) hqs
      have h1 : 2 ≤ i.minFac := hq.two_le
      nlinarith
  have hqmem : i.minFac ∈ primesUpTo m := mem_primesUpTo.2 ⟨hq, by omega⟩
  have hqtw : i.minFac ∈ (primesUpTo m).takeWhile fun p => decide (p * p ≤ i) := by
    refine mem_takeWhile_of_sorted (primesUpTo_pairwise m) hqmem ?_
    intro b hb
    simp only [decide_eq_true_eq]
    exact Nat.le_trans (Nat.mul_le_mul hb hb) hqs
  have hsome : (((primesUpTo m).takeWhile fun p => decide (p * p ≤ i)).find?
      fun p => i % p == 0).isSome := by
    rw [List.find?_isSome]
    exact ⟨i.minFac, hqtw, by simp [Nat.eq_zero_of_dvd_of_lt, (Nat.mod_eq_zero_of_dvd hqd)]⟩
  obtain ⟨p, hp⟩ := Option.isSome_iff_exists.1 hsome
  have hpmem : p ∈ primesUpTo m := (List.takeWhile_sublist _).subset (List.mem_of_find?_eq_some hp)
  have hppred : p * p ≤ i := by
    have h1 := List.mem_of_find?_eq_some hp
    have h2 := List.mem_takeWhile_imp (p := fun q => decide (q * q ≤ i)) h1
    simpa using h2
  have hpdvd : p ∣ i := Nat.dvd_of_mod_eq_zero (by simpa using List.find?_some hp)
  exact ⟨p, hp, (mem_primesUpTo.1 hpmem).1, hpdvd, hppred⟩

/-- The last recorded basedness of a record list, or 0 when none exists
(`based.last().copied().map_or(0, ...)`, `src/main.rs` line 116). -/
def basedLast (l : List (Nat × Nat)) : Nat := (l.getLast?.map Prod.snd).getD 0

/-- The count of numbers `j` with `2 ≤ j ≤ m` having exactly `c` distinct
prime factors. -/
def omegaCount (m c : Nat) : Nat :=
  ((List.range (m + 1)).filter fun j =>
    decide (2 ≤ j) && decide (numPrimeFactors j = c)).length

/-- The reference histogram contents after the sieve has processed the
numbers `2..m`: bucket `k` counts the numbers with `k + 1` distinct prime
factors. -/
def histOf (m : Nat) : List Nat := (List.range 10).map fun k => omegaCount m (k + 1)

/-- The reference basedness record list after the sieve has processed the
numbers `2..m`: number `n` is appended exactly when its basedness exceeds
the previously last recorded basedness. -/
def basedListUpTo : Nat → List (Nat × Nat)
  | 0 => []
  | m + 1 =>
    if m + 1 < 2 then []
    else
      let prev := basedListUpTo m
      if basedLast prev < basednessOf (m + 1) then
        prev ++ [(m + 1, basednessOf (m + 1))]
      else prev

/-- The reference sieve state after the loop has processed the numbers
`2..m` (meaningful for `m ≥ 1`). -/
def stateOf (m : Nat) : SieveState where
  num_properties := fun j => if 1 ≤ j ∧ j ≤ m then some (propsOf j) else none
  prime_factors := fun j => if 2 ≤ j ∧ j ≤ m then factList j else []
  primes := primesUpTo m
  based := basedListUpTo m
  num_prime_factors_histogram := histOf m

theorem histOf_length (m : Nat) : (histOf m).length = 10 := by
  unfold histOf
  rw [List.length_map, List.length_range]

theorem histOf_one : histOf 1 = List.replicate 10 0 := rfl

theorem omegaCount_succ (m c : Nat) :
    omegaCount (m + 1) c =
      omegaCount m c + if 2 ≤ m + 1 ∧ numPrimeFactors (m + 1) = c then 1 else 0 := by
  unfold omegaCount
  rw [List.range_succ, List.filter_append, List.length_append]
  by_cases h1 : 2 ≤ m + 1 <;> by_cases h2 : numPrimeFactors (m + 1) = c <;>
    simp [List.filter_cons, h1, h2]

theorem getD_histOf {m k : Nat} (hk : k < 10) : (histOf m).getD k 0 = omegaCount m (k + 1) := by
  unfold histOf
  rw [List.getD_eq_getElem?_getD, List.getElem?_map, List.getElem?_range hk]
  rfl

/-- Bumping the reference histogram of `m` at the bucket of `m + 1` gives
the reference histogram of `m + 1`. -/
theorem histIncr_histOf {m : Nat} (hm : 1 ≤ m) (hlo : 1 ≤ numPrimeFactors (m + 1))
    (hhi : numPrimeFactors (m + 1) ≤ 10) :
    histIncr (histOf m) (numPrimeFactors (m + 1) - 1) = some (histOf (m + 1)) := by
  unfold histIncr
  rw [histOf_length, if_pos (by omega)]
  congr 1
  apply List.ext_getElem
  · rw [List.length_set, histOf_length, histOf_length]
  intro k hk1 hk2
  have hk10 : k < 10 := by rwa [histOf_length] at hk2
  have hkm : k < (histOf m).length := by rw [histOf_length]; exact hk10
  have hgetD : ∀ (l : List Nat) (hk : k < l.length), l.getD k 0 = l.get ⟨k, hk⟩ := by
    intro l hk
    rw [List.getD_eq_getElem?_getD, List.getElem?_eq_getElem hk]
    rfl
  have hgetm1 : (histOf (m + 1)).get ⟨k, hk2⟩ = omegaCount (m + 1) (k + 1) := by
    unfold histOf
    simp [List.getElem_map, List.getElem_range]
  have hgetm : (histOf m).get ⟨k, hkm⟩ = omegaCount m (k + 1) := by
    unfold histOf
    simp [List.getElem_map, List.getElem_range]
  show ((histOf m).set (numPrimeFactors (m + 1) - 1)
      ((histOf m).getD (numPrimeFactors (m + 1) - 1) 0 + 1)).get ⟨k, hk1⟩ =
    (histOf (m + 1)).get ⟨k, hk2⟩
  rw [hgetm1, List.get_eq_getElem, List.getElem_set]
  by_cases hEq : numPrimeFactors (m + 1) - 1 = k
  · rw [if_pos hEq, getD_histOf (by omega), omegaCount_succ, if_pos ⟨by omega, by omega⟩,
      show k + 1 = numPrimeFactors (m + 1) by omega]
    have harg : numPrimeFactors (m + 1) - 1 + 1 = numPrimeFactors (m + 1) := by omega
    rw [harg]
  · rw [if_neg hEq, omegaCount_succ, if_neg (by omega)]
    have hx : (histOf m)[k] = omegaCount m (k + 1) := by
      unfold histOf
      simp [List.getElem_map, List.getElem_range]
    rw [hx]
    omega

/-- Incrementing a bucket in range adds one to the bucket sum. -/
theorem sum_set_incr : ∀ {l : List Nat} {idx : Nat}, idx < l.length →
    (l.set idx (l.getD idx 0 + 1)).sum = l.sum + 1 := by
  intro l
  induction l with
  | nil =>
    intro idx h
    simp at h
  | cons x t ih =>
    intro idx h
    match idx with
    | 0 => simp [List.sum_cons]; omega
    | idx + 1 =>
      have ht : idx < t.length := by simpa using h
      simp only [List.set_cons_succ, List.getD_cons_succ, List.sum_cons, ih ht]
      omega

/-- The step equation of the reference record list, for `m ≥ 1`. -/
theorem basedListUpTo_succ {m : Nat} (hm : 1 ≤ m) :
    basedListUpTo (m + 1) =
      if basedLast (basedListUpTo m) < basednessOf (m + 1) then
        basedListUpTo m ++ [(m + 1, basednessOf (m + 1))]
      else basedListUpTo m := by
  conv_lhs => unfold basedListUpTo
  rw [if_neg (by omega)]

/-- Every entry of the reference record list is a processed number paired
with its basedness. -/
theorem basedListUpTo_entries : ∀ {m j b : Nat}, (j, b) ∈ basedListUpTo m →
    2 ≤ j ∧ j ≤ m ∧ b = basednessOf j := by
  intro m
  induction m with
  | zero =>
    intro j b h
    cases h
  | succ m ih =>
    intro j b h
    match m, h with
    | 0, h => cases h
    | m + 1, h =>
      rw [basedListUpTo_succ (by omega)] at h
      by_cases hc : basedLast (basedListUpTo (m + 1)) < basednessOf (m + 2)
      · rw [if_pos hc] at h
        rcases List.mem_append.1 h with h1 | h1
        · obtain ⟨hj1, hj2, hj3⟩ := ih h1
          exact ⟨hj1, by omega, hj3⟩
        · rw [List.mem_singleton] at h1
          have hj : j = m + 2 := congrArg Prod.fst h1
          have hb : b = basednessOf (m + 2) := congrArg Prod.snd h1
          subst hj
          exact ⟨by omega, by omega, hb⟩
      · rw [if_neg hc] at h
        obtain ⟨hj1, hj2, hj3⟩ := ih h
        exact ⟨hj1, by omega, hj3⟩

theorem basedListUpTo_one : basedListUpTo 1 = [] := rfl

theorem basedLast_concat (l : List (Nat × Nat)) (x : Nat × Nat) :
    basedLast (l ++ [x]) = x.2 := by
  unfold basedLast
  rw [List.getLast?_concat]
  rfl

/-- The reference record list is strictly increasing in both the number and
the basedness, and the last basedness bounds every recorded basedness. -/
theorem basedListUpTo_invariant : ∀ (m : Nat),
    List.Pairwise (fun x y : Nat × Nat => x.1 < y.1 ∧ x.2 < y.2) (basedListUpTo m) ∧
    ∀ e ∈ basedListUpTo m, e.2 ≤ basedLast (basedListUpTo m) := by
  intro m
  induction m with
  | zero => exact ⟨List.Pairwise.nil, fun e h => by cases h⟩
  | succ m ih =>
    rcases Nat.eq_zero_or_pos m with rfl | hm
    · rw [basedListUpTo_one]
      exact ⟨List.Pairwise.nil, fun e h => by cases h⟩
    rw [basedListUpTo_succ hm]
    by_cases hc : basedLast (basedListUpTo m) < basednessOf (m + 1)
    · rw [if_pos hc]
      constructor
      · rw [List.pairwise_append]
        refine ⟨ih.1, List.pairwise_singleton _ _, ?_⟩
        intro a ha y hy
        rw [List.mem_singleton] at hy
        subst hy
        obtain ⟨-, ha2, -⟩ :=
          basedListUpTo_entries (show (a.1, a.2) ∈ basedListUpTo m by rw [Prod.mk.eta]; exact ha)
        have hab := ih.2 a ha
        exact ⟨by omega, by omega⟩
      · intro e he
        rw [basedLast_concat]
        rcases List.mem_append.1 he with h1 | h1
        · have := ih.2 e h1
          omega
        · rw [List.mem_singleton] at h1
          subst h1
          exact Nat.le_refl _
    · rw [if_neg hc]
      exact ih

/-- A number `i` appears in the reference record list of any `m ≥ i`
exactly when its basedness beats the last record at time `i - 1`. -/
theorem mem_basedListUpTo_iff {i : Nat} (h2 : 2 ≤ i) : ∀ {m : Nat}, i ≤ m →
    ((∃ b, (i, b) ∈ basedListUpTo m) ↔
      basedLast (basedListUpTo (i - 1)) < basednessOf i) := by
  intro m
  induction m with
  | zero => intro him; omega
  | succ m ih =>
    intro him
    by_cases hcase : i = m + 1
    · subst hcase
      rw [basedListUpTo_succ (by omega)]
      by_cases hc : basedLast (basedListUpTo m) < basednessOf (m + 1)
      · rw [if_pos hc]
        refine ⟨fun _ => by rw [show m + 1 - 1 = m from rfl]; exact hc, fun _ => ?_⟩
        exact ⟨basednessOf (m + 1), List.mem_append.2 (Or.inr (List.mem_singleton.2 rfl))⟩
      · rw [if_neg hc]
        constructor
        · rintro ⟨b, hb⟩
          obtain ⟨-, hle, -⟩ := basedListUpTo_entries hb
          omega
        · intro h
          rw [show m + 1 - 1 = m from rfl] at h
          exact absurd h hc
    · have him2 : i ≤ m := by omega
      rw [← ih him2]
      have hm1 : 1 ≤ m := by omega
      rw [basedListUpTo_succ hm1]
      by_cases hc : basedLast (basedListUpTo m) < basednessOf (m + 1)
      · rw [if_pos hc]
        constructor
        · rintro ⟨b, hb⟩
          rcases List.mem_append.1 hb with h1 | h1
          · exact ⟨b, h1⟩
          · rw [List.mem_singleton] at h1
            exact absurd (congrArg Prod.fst h1) hcase
        · rintro ⟨b, hb⟩
          exact ⟨b, List.mem_append.2 (Or.inl hb)⟩
      · rw [if_neg hc]

end MathSide

section Master

theorem numDivisors_prime {p : Nat} (hp : p.Prime) : numDivisors p = 2 := by
  unfold numDivisors
  rw [hp.divisors,
    Finset.card_insert_of_not_mem (by rw [Finset.mem_singleton]; exact Nat.ne_of_lt hp.one_lt),
    Finset.card_singleton]

theorem numPrimeFactors_pos {n : Nat} (hn : 2 ≤ n) : 1 ≤ numPrimeFactors n :=
  Finset.card_pos.2 (Nat.nonempty_primeFactors.2 (by omega))

theorem primesUpTo_one : primesUpTo 1 = [] := by
  have h0 : (decide (Nat.Prime 0)) = false := decide_eq_false Nat.not_prime_zero
  have h1 : (decide (Nat.Prime 1)) = false := decide_eq_false Nat.not_prime_one
  unfold primesUpTo
  rw [show List.range 2 = [0, 1] from rfl]
  simp [List.filter_cons, h0, h1]

theorem stepBranch_some {s : SieveState} {i p : Nat} (h : findFactor s.primes i = some p) :
    stepBranch s i =
      (TinyMap.entryAndModifyOrInsert (s.prime_factors (i / p)) p (fun k => k + 1) 1,
        ((TinyMap.values (TinyMap.entryAndModifyOrInsert (s.prime_factors (i / p)) p
          (fun k => k + 1) 1)).map fun k => k + 1).prod,
        s.primes) := by
  unfold stepBranch
  rw [h]

theorem stepBranch_none {s : SieveState} {i : Nat} (h : findFactor s.primes i = none) :
    stepBranch s i = ((TinyMap.insert (s.prime_factors i) i 1).1, 2, s.primes ++ [i]) := by
  unfold stepBranch
  rw [h]

/-- Branch-level master lemma: on the reference state of `m`, the branch at
`i = m + 1` produces the factorization list of `i`, the divisor count of
`i`, and the primes up to `i`. -/
theorem stepBranch_stateOf {m : Nat} (hm : 1 ≤ m) :
    stepBranch (stateOf m) (m + 1) =
      (factList (m + 1), numDivisors (m + 1), primesUpTo (m + 1)) := by
  have h2 : 2 ≤ m + 1 := by omega
  have hprimes : (stateOf m).primes = primesUpTo m := rfl
  by_cases hprime : (m + 1).Prime
  · have hnone : findFactor (stateOf m).primes (m + 1) = none := by
      rw [hprimes]
      refine findFactor_none hprime ?_
      intro q hq
      obtain ⟨hq1, hq2⟩ := mem_primesUpTo.1 hq
      exact ⟨hq1, by omega⟩
    rw [stepBranch_none hnone]
    have hpfhigh : (stateOf m).prime_factors (m + 1) = [] := by
      show (if 2 ≤ m + 1 ∧ m + 1 ≤ m then factList (m + 1) else []) = []
      rw [if_neg (by omega)]
    rw [hpfhigh, hprimes, factList_prime hprime, numDivisors_prime hprime, primesUpTo_succ,
      if_pos hprime]
    rfl
  · obtain ⟨p, hfind, hp, hdvd, hsq⟩ := findFactor_composite rfl h2 hprime
    have hfind2 : findFactor (stateOf m).primes (m + 1) = some p := by rw [hprimes]; exact hfind
    rw [stepBranch_some hfind2]
    have hple : p ≤ (m + 1) / p := (Nat.le_div_iff_mul_le hp.pos).2 hsq
    have hdiv2 : 2 ≤ (m + 1) / p := Nat.le_trans hp.two_le hple
    have hdivle : (m + 1) / p ≤ m := by
      have := Nat.div_lt_self (show 0 < m + 1 by omega) hp.one_lt
      omega
    have hpfdiv : (stateOf m).prime_factors ((m + 1) / p) = factList ((m + 1) / p) := by
      show (if 2 ≤ (m + 1) / p ∧ (m + 1) / p ≤ m then factList ((m + 1) / p) else []) =
        factList ((m + 1) / p)
      rw [if_pos ⟨hdiv2, hdivle⟩]
    rw [hpfdiv, factList_step h2 hp hdvd, factList_divisor_count (by omega), hprimes,
      primesUpTo_succ, if_neg hprime, List.append_nil]

/-- Master step lemma: a loop iteration at `i = m + 1` on the reference
state of `m` succeeds and produces the reference state of `m + 1`, as long
as the new number fits the ten histogram buckets. -/
theorem step_stateOf {m : Nat} (hm : 1 ≤ m) (hw : numPrimeFactors (m + 1) ≤ 10) :
    step (stateOf m) (m + 1) = some (stateOf (m + 1)) := by
  simp only [step]
  rw [stepBranch_stateOf hm]
  simp only [TinyMap.shrink_to_fit]
  have hhist : (stateOf m).num_prime_factors_histogram = histOf m := rfl
  rw [factList_length, hhist,
    histIncr_histOf hm (numPrimeFactors_pos (by omega)) hw]
  have hprev : (stateOf m).num_properties (m + 1 - 1) = some (propsOf m) := by
    show (if 1 ≤ m ∧ m ≤ m then some (propsOf m) else none) = some (propsOf m)
    rw [if_pos ⟨hm, Nat.le_refl m⟩]
  rw [hprev]
  simp only [Option.some_bind]
  congr 1
  show SieveState.mk _ _ _ _ _ = stateOf (m + 1)
  unfold stateOf
  congr 1
  · funext j
    by_cases hj : j = m + 1
    · rw [hj, Function.update_same, if_pos ⟨by omega, Nat.le_refl _⟩]
      rfl
    · rw [Function.update_noteq hj]
      show (if 1 ≤ j ∧ j ≤ m then some (propsOf j) else none) = _
      have hiff : (1 ≤ j ∧ j ≤ m) ↔ (1 ≤ j ∧ j ≤ m + 1) := by omega
      simp only [hiff]
  · funext j
    by_cases hj : j = m + 1
    · rw [hj, Function.update_same, if_pos ⟨by omega, Nat.le_refl _⟩]
    · rw [Function.update_noteq hj]
      show (if 2 ≤ j ∧ j ≤ m then factList j else []) = _
      have hiff : (2 ≤ j ∧ j ≤ m) ↔ (2 ≤ j ∧ j ≤ m + 1) := by omega
      simp only [hiff]
  · rw [basedListUpTo_succ hm]
    rfl

/-- Splitting a run of the loop into two consecutive runs. -/
theorem sieveLoop_add (a b : Nat) : ∀ (i : Nat) (s : SieveState),
    sieveLoop (a + b) i s = (sieveLoop a i s).bind (sieveLoop b (i + a)) := by
  induction a with
  | zero =>
    intro i s
    rw [Nat.zero_add]
    show sieveLoop b i s = (some s).bind (sieveLoop b (i + 0))
    rw [Option.some_bind, Nat.add_zero]
  | succ a ih =>
    intro i s
    rw [show a + 1 + b = (a + b) + 1 from by omega]
    show (step s i).bind (sieveLoop (a + b) (i + 1)) =
      ((step s i).bind (sieveLoop a (i + 1))).bind (sieveLoop b (i + (a + 1)))
    cases hstep : step s i with
    | none => rfl
    | some s1 =>
      rw [Option.some_bind, Option.some_bind, ih (i + 1) s1,
        show i + 1 + a = i + (a + 1) from by omega]

theorem sieve_one : sieve 1 = some initState := rfl

/-- The pre-loop state is the reference state for `m = 1`
(number 1 is pre-seeded, nothing else is populated). -/
theorem initState_eq_stateOf_one : initState = stateOf 1 := by
  unfold initState stateOf
  congr 1
  · funext j
    by_cases hj : j = 1
    · rw [hj, Function.update_same, if_pos ⟨Nat.le_refl _, Nat.le_refl _⟩]
      show _ = some (propsOf 1)
      unfold propsOf basednessOf numPrimeFactors numDivisors
      rw [Nat.primeFactors_one]
      norm_num
    · rw [Function.update_noteq hj, if_neg (by omega)]
  · funext j
    rw [if_neg (by omega)]
    rfl

/-- Peeling the last iteration off a sieve run. -/
theorem sieve_succ {m : Nat} (hm : 1 ≤ m) :
    sieve (m + 1) = (sieve m).bind fun s => step s (m + 1) := by
  unfold sieve
  rw [show m + 1 - 1 = (m - 1) + 1 from by omega, sieveLoop_add (m - 1) 1 2 initState]
  congr 1
  funext s
  rw [show 2 + (m - 1) = m + 1 from by omega]
  show (step s (m + 1)).bind (sieveLoop 0 (m + 1 + 1)) = step s (m + 1)
  cases step s (m + 1) <;> rfl

/-- Master theorem, success direction: as long as every number processed
fits the ten histogram buckets, the sieve runs to completion and computes
exactly the reference state. -/
theorem sieve_stateOf : ∀ {m : Nat}, 1 ≤ m →
    (∀ j, 2 ≤ j → j ≤ m → numPrimeFactors j ≤ 10) → sieve m = some (stateOf m) := by
  intro m
  induction m with
  | zero => intro h; omega
  | succ m ih =>
    intro _ hbound
    rcases Nat.eq_zero_or_pos m with rfl | hm
    · rw [sieve_one, initState_eq_stateOf_one]
    · rw [sieve_succ hm, ih hm fun j h1 h2 => hbound j h1 (by omega), Option.some_bind]
      exact step_stateOf hm (hbound (m + 1) (by omega) (by omega))

/-- A number with more than ten distinct prime factors makes the histogram
increment go out of bounds, so the step panics. -/
theorem step_none {m : Nat} (hm : 1 ≤ m) (hw : 11 ≤ numPrimeFactors (m + 1)) :
    step (stateOf m) (m + 1) = none := by
  simp only [step]
  rw [stepBranch_stateOf hm]
  simp only [TinyMap.shrink_to_fit]
  have hhist : (stateOf m).num_prime_factors_histogram = histOf m := rfl
  rw [factList_length, hhist]
  have hnone : histIncr (histOf m) (numPrimeFactors (m + 1) - 1) = none := by
    unfold histIncr
    rw [histOf_length, if_neg (by omega)]
  rw [hnone]
  rfl

/-- Master theorem, failure direction: if any number in range has more
than ten distinct prime factors, the sieve run panics. -/
theorem sieve_none {max : Nat}
    (hex : ∃ j, 2 ≤ j ∧ j ≤ max ∧ 11 ≤ numPrimeFactors j) : sieve max = none := by
  have hP := Nat.find_spec hex
  have hmin : ∀ k, k < Nat.find hex → ¬(2 ≤ k ∧ k ≤ max ∧ 11 ≤ numPrimeFactors k) :=
    fun k hk => Nat.find_min hex hk
  obtain ⟨hj2, hjle, hjw⟩ := hP
  have hsmall : ∀ j, 2 ≤ j → j ≤ Nat.find hex - 1 → numPrimeFactors j ≤ 10 := by
    intro j h2 hle
    by_contra hgt
    exact hmin j (by omega) ⟨h2, by omega, by omega⟩
  have hj01 : 1 ≤ Nat.find hex - 1 := by omega
  have hprev : sieve (Nat.find hex - 1) = some (stateOf (Nat.find hex - 1)) :=
    sieve_stateOf hj01 hsmall
  have hstep : step (stateOf (Nat.find hex - 1)) (Nat.find hex) = none := by
    have heq : Nat.find hex - 1 + 1 = Nat.find hex := by omega
    have h1 := step_none (m := Nat.find hex - 1) hj01 (by rw [heq]; exact hjw)
    rwa [heq] at h1
  unfold sieve
  rw [show max - 1 = (Nat.find hex - 2) + ((max - Nat.find hex) + 1) from by omega,
    sieveLoop_add, show 2 + (Nat.find hex - 2) = Nat.find hex from by omega]
  have hfuel : Nat.find hex - 2 = Nat.find hex - 1 - 1 := by omega
  rw [hfuel]
  show ((sieve (Nat.find hex - 1)).bind fun s =>
    sieveLoop ((max - Nat.find hex) + 1) (Nat.find hex) s) = none
  rw [hprev, Option.some_bind]
  show (step (stateOf (Nat.find hex - 1)) (Nat.find hex)).bind _ = none
  rw [hstep]
  rfl

/-- Success inversion: a completed run determines the reference state and
bounds the number of distinct prime factors of every processed number. -/
theorem sieve_some_inv {max : Nat} {s : SieveState} (hmax : 1 ≤ max)
    (h : sieve max = some s) :
    s = stateOf max ∧ ∀ j, 2 ≤ j → j ≤ max → numPrimeFactors j ≤ 10 := by
  have hbound : ∀ j, 2 ≤ j → j ≤ max → numPrimeFactors j ≤ 10 := by
    intro j h2 hle
    by_contra hgt
    rw [sieve_none ⟨j, h2, hle, by omega⟩] at h
    cases h
  refine ⟨?_, hbound⟩
  have h2 := (sieve_stateOf hmax hbound).symm.trans h
  exact (Option.some_inj.1 h2).symm

end Master

section Reporting

/-- The reporting transformation of the histogram (`src/main.rs` lines
121-127): keep the longest prefix of nonzero buckets and pair each with
its distinct-prime-factor count (index + 1). -/
def histReport (h : List Nat) : List (Nat × Nat) :=
  ((h.takeWhile fun n => decide (0 < n)).enum).map fun p => (p.1 + 1, p.2)

/-- Stated from the specification words: the histogram with its trailing
zero-count buckets removed. -/
def removeTrailingZeros (h : List Nat) : List Nat :=
  (h.reverse.dropWhile fun n => n == 0).reverse

/-- Stated from the specification words: the full fixed-size histogram
with trailing zero-count buckets removed, each surviving bucket paired
with its distinct-prime-factor count (bucket index + 1). -/
def specTrimmedHistogram (h : List Nat) : List (Nat × Nat) :=
  ((removeTrailingZeros h).enum).map fun p => (p.1 + 1, p.2)

theorem takeWhile_pos_nil_of_all_zero {t : List Nat} (h : ∀ e ∈ t, e = 0) :
    t.takeWhile (fun n => decide (0 < n)) = [] := by
  cases t with
  | nil => rfl
  | cons y t' =>
    have hy : y = 0 := h y (List.mem_cons_self _ _)
    rw [List.takeWhile_cons_of_neg]
    simp [hy]

theorem removeTrailingZeros_nil_of_all_zero {t : List Nat} (h : ∀ e ∈ t, e = 0) :
    removeTrailingZeros t = [] := by
  unfold removeTrailingZeros
  have hnil : t.reverse.dropWhile (fun n => n == 0) = [] := by
    rw [List.dropWhile_eq_nil_iff]
    intro x hx
    have := h x (List.mem_reverse.1 hx)
    simp [this]
  rw [hnil]
  rfl

/-- On a histogram whose positive buckets form a prefix (downward-closed
positivity), the prefix of positive buckets is exactly the histogram with
trailing zeros removed. -/
theorem takeWhile_pos_eq_removeTrailingZeros : ∀ {h : List Nat},
    (∀ i j, j < h.length → i ≤ j → 0 < h.getD j 0 → 0 < h.getD i 0) →
    h.takeWhile (fun n => decide (0 < n)) = removeTrailingZeros h := by
  intro h
  induction h with
  | nil => intro _; rfl
  | cons x t ih =>
    intro hdc
    rcases Nat.eq_zero_or_pos x with rfl | hx
    · have hall : ∀ e ∈ t, e = 0 := by
        intro e he
        obtain ⟨j, hj, rfl⟩ := List.getElem_of_mem he
        by_contra hne
        have hpos : 0 < (0 :: t).getD (j + 1) 0 := by
          rw [List.getD_cons_succ, List.getD_eq_getElem _ _ hj]
          omega
        have h0 : (0 : Nat) < (0 :: t).getD 0 0 :=
          hdc 0 (j + 1) (by simpa using hj) (by omega) hpos
        simp at h0
      rw [List.takeWhile_cons_of_neg (by simp),
        removeTrailingZeros_nil_of_all_zero (by
          intro e he
          rcases List.mem_cons.1 he with rfl | he2
          · rfl
          · exact hall e he2)]
    · rw [List.takeWhile_cons_of_pos (by simpa using hx)]
      have hdct : ∀ i j, j < t.length → i ≤ j → 0 < t.getD j 0 → 0 < t.getD i 0 := by
        intro i j hj hij hpos
        have := hdc (i + 1) (j + 1) (by simpa using hj) (by omega)
          (by rwa [List.getD_cons_succ])
        rwa [List.getD_cons_succ] at this
      rw [ih hdct]
      unfold removeTrailingZeros
      rw [List.reverse_cons, List.dropWhile_append]
      by_cases hemp : (t.reverse.dropWhile fun n => n == 0) = []
      · rw [hemp]
        have hxne : (x == 0) = false := by
          simp only [beq_eq_false_iff_ne, ne_eq]
          omega
        simp [List.dropWhile_cons, hxne]
      · rw [if_neg (by simpa using hemp)]
        rw [List.reverse_append]
        rfl

/-- The first components of the reporting rows are strictly increasing. -/
theorem histReport_pairwise (h : List Nat) :
    List.Pairwise (fun a b : Nat × Nat => a.1 < b.1) (histReport h) := by
  unfold histReport
  rw [List.pairwise_map]
  have henum : List.Pairwise (fun a b : Nat × Nat => a.1 < b.1)
      (h.takeWhile fun n => decide (0 < n)).enum := by
    rw [List.pairwise_iff_getElem]
    intro i j hi hj hij
    rw [List.getElem_enum, List.getElem_enum]
    exact hij
  exact henum.imp fun hab => by omega

/-- The bucket sums of the reference histogram count the processed
numbers, as long as they all fit the ten buckets. -/
theorem histOf_sum : ∀ {m : Nat}, 1 ≤ m →
    (∀ j, 2 ≤ j → j ≤ m → numPrimeFactors j ≤ 10) → (histOf m).sum = m - 1 := by
  intro m
  induction m with
  | zero => intro h; omega
  | succ m ih =>
    intro _ hbound
    rcases Nat.eq_zero_or_pos m with rfl | hm
    · rw [histOf_one]
      rfl
    · have hb10 : numPrimeFactors (m + 1) ≤ 10 := hbound (m + 1) (by omega) (by omega)
      have hset := histIncr_histOf hm (numPrimeFactors_pos (by omega)) hb10
      unfold histIncr at hset
      rw [histOf_length, if_pos (by omega)] at hset
      have heq := Option.some_inj.1 hset
      rw [← heq, sum_set_incr (by rw [histOf_length]; omega),
        ih hm fun j h1 h2 => hbound j h1 (by omega)]
      omega

end Reporting

section Helpers

/-- Any number is at least 2 to the power of its count of distinct prime
factors. -/
theorem two_pow_omega_le {n : Nat} (hn : 1 ≤ n) : 2 ^ numPrimeFactors n ≤ n := by
  have h1 : (∏ p ∈ n.primeFactors, p) ∣ n := Nat.prod_primeFactors_dvd n
  have h2 : 2 ^ numPrimeFactors n ≤ ∏ p ∈ n.primeFactors, p :=
    Finset.pow_card_le_prod _ _ _ fun p hp => (Nat.prime_of_mem_primeFactors hp).two_le
  exact Nat.le_trans h2 (Nat.le_of_dvd (by omega) h1)

/-- Every number below 2 ^ 11 fits the ten histogram buckets. -/
theorem omega_le_ten_of_small {j : Nat} (h1 : 1 ≤ j) (h2 : j ≤ 2047) :
    numPrimeFactors j ≤ 10 := by
  by_contra hgt
  have h3 : 2 ^ 11 ≤ 2 ^ numPrimeFactors j := Nat.pow_le_pow_right (by omega) (by omega)
  have h4 := two_pow_omega_le h1
  have h5 : (2 : Nat) ^ 11 = 2048 := by norm_num
  omega

/-- Dividing out one full prime power reduces the number of distinct prime
factors by exactly one. -/
theorem omega_descent {maxN c : Nat} (hc : 1 ≤ c)
    (h : ∃ j, 2 ≤ j ∧ j ≤ maxN ∧ numPrimeFactors j = c + 1) :
    ∃ j, 2 ≤ j ∧ j ≤ maxN ∧ numPrimeFactors j = c := by
  obtain ⟨j, h2, hle, hw⟩ := h
  have hnon : j.primeFactors.Nonempty := Finset.card_pos.1 (by
    unfold numPrimeFactors at hw
    omega)
  obtain ⟨p, hp⟩ := hnon
  have hpf : (ordCompl[p] j).primeFactors = j.primeFactors.erase p := by
    rw [← Nat.support_factorization, Nat.factorization_ordCompl, Finsupp.support_erase,
      Nat.support_factorization]
  have hcard : numPrimeFactors (ordCompl[p] j) = c := by
    unfold numPrimeFactors at hw ⊢
    rw [hpf, Finset.card_erase_of_mem hp]
    omega
  have hle2 : ordCompl[p] j ≤ j := Nat.ordCompl_le j p
  have h2a : 2 ≤ ordCompl[p] j := by
    by_contra hlt
    have hpe : (ordCompl[p] j).primeFactors = ∅ :=
      Nat.primeFactors_eq_empty.2 (Nat.le_one_iff_eq_zero_or_eq_one.1 (by omega))
    have hzero : numPrimeFactors (ordCompl[p] j) = 0 := by
      unfold numPrimeFactors
      rw [hpe]
      rfl
    omega
  exact ⟨ordCompl[p] j, h2a, by omega, hcard⟩

theorem omegaCount_pos_iff {m c : Nat} :
    0 < omegaCount m c ↔ ∃ j, 2 ≤ j ∧ j ≤ m ∧ numPrimeFactors j = c := by
  unfold omegaCount
  rw [List.length_pos_iff_exists_mem]
  constructor
  · rintro ⟨j, hj⟩
    rw [List.mem_filter] at hj
    obtain ⟨hr, hpj⟩ := hj
    rw [List.mem_range] at hr
    simp only [Bool.and_eq_true, decide_eq_true_eq] at hpj
    exact ⟨j, hpj.1, by omega, hpj.2⟩
  · rintro ⟨j, h2, hle, hw⟩
    exact ⟨j, List.mem_filter.2 ⟨List.mem_range.2 (by omega), by simp [h2, hw]⟩⟩

/-- Bucket positivity is downward closed: if some number has `k + 1`
distinct prime factors, some (smaller) number has `j + 1` of them for
every `j ≤ k`. -/
theorem omegaCount_pos_of_le {m : Nat} : ∀ {k j : Nat}, j ≤ k →
    0 < omegaCount m (k + 1) → 0 < omegaCount m (j + 1) := by
  intro k
  induction k with
  | zero =>
    intro j hj h
    have hj0 : j = 0 := by omega
    rw [hj0]
    exact h
  | succ k ih =>
    intro j hj h
    by_cases hcase : j = k + 1
    · rw [hcase]
      exact h
    · have h1 : 0 < omegaCount m (k + 1) := by
        rw [omegaCount_pos_iff] at h ⊢
        exact omega_descent (by omega) h
      exact ih (by omega) h1

/-- The state a completed run of the sieve yields (definitionally
`sieve max` stripped of its `some`). -/
def fullState (max : Nat) : SieveState := (sieve max).getD initState

end Helpers

section Primorial

theorem numPrimeFactors_prime {p : Nat} (hp : p.Prime) : numPrimeFactors p = 1 := by
  unfold numPrimeFactors
  rw [hp.primeFactors, Finset.card_singleton]

theorem numPrimeFactors_mul_prime {p n : Nat} (hp : p.Prime) (hn : n ≠ 0) (hnd : ¬ p ∣ n) :
    numPrimeFactors (p * n) = numPrimeFactors n + 1 := by
  unfold numPrimeFactors
  rw [Nat.primeFactors_mul hp.pos.ne' hn, hp.primeFactors, ← Finset.insert_eq,
    Finset.card_insert_of_not_mem fun hmem => hnd (Nat.dvd_of_mem_primeFactors hmem)]

/-- The product of the first eleven primes has eleven distinct prime
factors, so its histogram bucket index would be out of bounds. -/
theorem omega_primorial_eleven : numPrimeFactors 200560490130 = 11 := by
  have t1 : numPrimeFactors 31 = 1 := numPrimeFactors_prime (by norm_num)
  have t2 : numPrimeFactors 899 = 2 := by
    rw [show (899 : Nat) = 29 * 31 from by norm_num,
      numPrimeFactors_mul_prime (by norm_num) (by norm_num) (by decide), t1]
  have t3 : numPrimeFactors 20677 = 3 := by
    rw [show (20677 : Nat) = 23 * 899 from by norm_num,
      numPrimeFactors_mul_prime (by norm_num) (by norm_num) (by decide), t2]
  have t4 : numPrimeFactors 392863 = 4 := by
    rw [show (392863 : Nat) = 19 * 20677 from by norm_num,
      numPrimeFactors_mul_prime (by norm_num) (by norm_num) (by decide), t3]
  have t5 : numPrimeFactors 6678671 = 5 := by
    rw [show (6678671 : Nat) = 17 * 392863 from by norm_num,
      numPrimeFactors_mul_prime (by norm_num) (by norm_num) (by decide), t4]
  have t6 : numPrimeFactors 86822723 = 6 := by
    rw [show (86822723 : Nat) = 13 * 6678671 from by norm_num,
      numPrimeFactors_mul_prime (by norm_num) (by norm_num) (by decide), t5]
  have t7 : numPrimeFactors 955049953 = 7 := by
    rw [show (955049953 : Nat) = 11 * 86822723 from by norm_num,
      numPrimeFactors_mul_prime (by norm_num) (by norm_num) (by decide), t6]
  have t8 : numPrimeFactors 6685349671 = 8 := by
    rw [show (6685349671 : Nat) = 7 * 955049953 from by norm_num,
      numPrimeFactors_mul_prime (by norm_num) (by norm_num) (by decide), t7]
  have t9 : numPrimeFactors 33426748355 = 9 := by
    rw [show (33426748355 : Nat) = 5 * 6685349671 from by norm_num,
      numPrimeFactors_mul_prime (by norm_num) (by norm_num) (by decide), t8]
  have t10 : numPrimeFactors 100280245065 = 10 := by
    rw [show (100280245065 : Nat) = 3 * 33426748355 from by norm_num,
      numPrimeFactors_mul_prime (by norm_num) (by norm_num) (by decide), t9]
  rw [show (200560490130 : Nat) = 2 * 100280245065 from by norm_num,
    numPrimeFactors_mul_prime (by norm_num) (by norm_num) (by decide), t10]

end Primorial

section Claims

/-- C1: for every i with 2 ≤ i ≤ max, the `num_factors` value stored in
the per-number record for i equals the number of positive divisors of i
(composite branch: product of (exponent + 1) over the factorization map;
prime branch: 2). -/
theorem C1_num_factors_is_divisor_count (max : Nat) (s : SieveState)
    (hs : sieve max = some s) (i : Nat) (h2 : 2 ≤ i) (hle : i ≤ max) :
    ∃ r, s.num_properties i = some r ∧ r.num_factors = (Nat.divisors i).card := by
  obtain ⟨hst, -⟩ := sieve_some_inv (by omega) hs
  subst hst
  refine ⟨propsOf i, ?_, rfl⟩
  show (if 1 ≤ i ∧ i ≤ max then some (propsOf i) else none) = some (propsOf i)
  rw [if_pos ⟨by omega, hle⟩]

theorem C1_witness :
    ∃ r, (fullState 10).num_properties 7 = some r ∧ r.num_factors = (Nat.divisors 7).card :=
  C1_num_factors_is_divisor_count 10 (fullState 10) rfl 7 (by omega) (by omega)

/-- C2: for every i with 2 ≤ i ≤ max, the stored basedness of i equals the
stored distinct-prime-factor count of i times the stored factor count of
i - 1, and number 1 is pre-seeded before the loop with factor count 1,
distinct prime factor count 0 and basedness 0. -/
theorem C2_basedness_cross_dependency (max : Nat) (s : SieveState)
    (hs : sieve max = some s) (i : Nat) (h2 : 2 ≤ i) (hle : i ≤ max) :
    initState.num_properties 1 = some ⟨1, 1, 0, 0⟩ ∧
    ∃ r r1, s.num_properties i = some r ∧ s.num_properties (i - 1) = some r1 ∧
      r.basedness = r.num_prime_factors * r1.num_factors := by
  obtain ⟨hst, -⟩ := sieve_some_inv (by omega) hs
  subst hst
  refine ⟨rfl, propsOf i, propsOf (i - 1), ?_, ?_, rfl⟩
  · show (if 1 ≤ i ∧ i ≤ max then some (propsOf i) else none) = some (propsOf i)
    rw [if_pos ⟨by omega, hle⟩]
  · show (if 1 ≤ i - 1 ∧ i - 1 ≤ max then some (propsOf (i - 1)) else none) =
      some (propsOf (i - 1))
    rw [if_pos ⟨by omega, by omega⟩]

theorem C2_witness :
    initState.num_properties 1 = some ⟨1, 1, 0, 0⟩ ∧
    ∃ r r1, (fullState 10).num_properties 4 = some r ∧
      (fullState 10).num_properties 3 = some r1 ∧
      r.basedness = r.num_prime_factors * r1.num_factors :=
  C2_basedness_cross_dependency 10 (fullState 10) rfl 4 (by omega) (by omega)

/-- C3: the claimed map invariant fails for `extend`: the `Extend`
implementation appends the incoming pairs to the backing vector, so
inserting key 5 and then extending with the pair (3, 2) leaves the
sequence [(5, 1), (3, 2)], which is not sorted by key, whereas a second
`insert` call with the same pair keeps it sorted. -/
theorem C3_extend_append_counterexample :
    TinyMap.extend (TinyMap.insert TinyMap.new 5 1).1 [(3, 2)] = [(5, 1), (3, 2)] ∧
    ¬ TinyMap.sortedKeys [(5, 1), (3, 2)] ∧
    (TinyMap.insert (TinyMap.insert TinyMap.new 5 1).1 3 2).1 = [(3, 2), (5, 1)] ∧
    TinyMap.sortedKeys [(3, 2), (5, 1)] := by
  refine ⟨rfl, ?_, rfl, ?_⟩
  · intro h
    have h1 := (TinyMap.sortedKeys_cons.1 h).1 (3, 2) (List.mem_singleton.2 rfl)
    have h2 : (5 : Nat) < 3 := h1
    omega
  · refine TinyMap.sortedKeys_cons.2 ⟨?_, List.pairwise_singleton _ _⟩
    intro b hb
    rw [List.mem_singleton] at hb
    rw [hb]
    show (3 : Nat) < 5
    omega

/-- C4 (amended): for every max ≥ 1 such that every number in [2, max]
has at most ten distinct prime factors (in particular every max below
200560490130), the core sieve runs to completion without failure — the
histogram index stays in bounds and the lookup of the previous record
always succeeds — and every prime used as a divisor is at least 2, so no
division by zero occurs. -/
theorem C4_amended_runs_to_completion (max : Nat) (hmax : 1 ≤ max)
    (hfit : ∀ j, 2 ≤ j → j ≤ max → numPrimeFactors j ≤ 10) :
    (∃ s, sieve max = some s) ∧ (∀ p ∈ (stateOf max).primes, 2 ≤ p) := by
  refine ⟨⟨stateOf max, sieve_stateOf hmax hfit⟩, ?_⟩
  intro p hp
  exact (mem_primesUpTo.1 hp).1.two_le

theorem C4_witness :
    (∃ s, sieve 10 = some s) ∧ (∀ p ∈ (stateOf 10).primes, 2 ≤ p) :=
  C4_amended_runs_to_completion 10 (by omega)
    fun j h1 h2 => omega_le_ten_of_small (by omega) (by omega)

/-- C4 as stated is false: at max = 200560490130 (the product of the
first eleven primes) the sieve panics, because that number has eleven
distinct prime factors and the histogram increment indexes past the ten
buckets. -/
theorem C4_counterexample : 1 ≤ 200560490130 ∧ sieve 200560490130 = none := by
  refine ⟨by omega, sieve_none ⟨200560490130, by omega, by omega, ?_⟩⟩
  rw [omega_primorial_eleven]

/-- C5: after a completed run the basedness record list is strictly
increasing in both the number and the basedness, and a number i was
appended exactly when its basedness strictly exceeds the basedness of the
previously last entry (0 for the empty list). -/
theorem C5_based_record_list (max : Nat) (s : SieveState) (hmax : 1 ≤ max)
    (hs : sieve max = some s) :
    List.Pairwise (fun x y : Nat × Nat => x.1 < y.1 ∧ x.2 < y.2) s.based ∧
    ∀ i, 2 ≤ i → i ≤ max → ∀ s1, sieve (i - 1) = some s1 →
      ((∃ b, (i, b) ∈ s.based) ↔ basedLast s1.based < basednessOf i) := by
  obtain ⟨hst, -⟩ := sieve_some_inv hmax hs
  subst hst
  refine ⟨(basedListUpTo_invariant max).1, ?_⟩
  intro i h2 hle s1 hs1
  obtain ⟨hst1, -⟩ := sieve_some_inv (by omega) hs1
  subst hst1
  exact mem_basedListUpTo_iff h2 hle

theorem C5_witness :
    (∃ b, (6, b) ∈ (fullState 10).based) ↔ basedLast ((fullState 5).based) < basednessOf 6 :=
  (C5_based_record_list 10 (fullState 10) (by omega) rfl).2 6 (by omega) (by omega)
    (fullState 5) rfl

/-- C6: after a completed run with max ≥ 2 the primes list holds exactly
the primes up to max, each exactly once, in strictly ascending order. -/
theorem C6_primes_exact (max : Nat) (s : SieveState) (hmax : 2 ≤ max)
    (hs : sieve max = some s) :
    List.Pairwise (· < ·) s.primes ∧ ∀ p, p ∈ s.primes ↔ p.Prime ∧ p ≤ max := by
  obtain ⟨hst, -⟩ := sieve_some_inv (by omega) hs
  subst hst
  exact ⟨primesUpTo_pairwise max, fun p => mem_primesUpTo⟩

theorem C6_witness : 7 ∈ (fullState 10).primes ↔ Nat.Prime 7 ∧ 7 ≤ 10 :=
  (C6_primes_exact 10 (fullState 10) (by omega) rfl).2 7

/-- C7: for every i with 2 ≤ i ≤ max, the product over the stored
factorization map of prime to the power exponent reconstructs i. -/
theorem C7_factorization_roundtrip (max : Nat) (s : SieveState)
    (hs : sieve max = some s) (i : Nat) (h2 : 2 ≤ i) (hle : i ≤ max) :
    ((s.prime_factors i).map fun kv => kv.1 ^ kv.2).prod = i := by
  obtain ⟨hst, -⟩ := sieve_some_inv (by omega) hs
  subst hst
  show ((if 2 ≤ i ∧ i ≤ max then factList i else []).map fun kv => kv.1 ^ kv.2).prod = i
  rw [if_pos ⟨h2, hle⟩]
  exact factList_reconstruct (by omega)

theorem C7_witness : (((fullState 10).prime_factors 9).map fun kv => kv.1 ^ kv.2).prod = 9 :=
  C7_factorization_roundtrip 10 (fullState 10) rfl 9 (by omega) (by omega)

/-- C8: the histogram sequence produced for reporting (longest prefix of
nonzero buckets, each paired with bucket index + 1) equals the full
histogram with its trailing zero-count buckets removed, paired the same
way, in ascending order of the distinct-prime-factor count. -/
theorem C8_histogram_report (max : Nat) (s : SieveState) (hmax : 1 ≤ max)
    (hs : sieve max = some s) :
    histReport s.num_prime_factors_histogram =
      specTrimmedHistogram s.num_prime_factors_histogram ∧
    List.Pairwise (fun a b : Nat × Nat => a.1 < b.1)
      (histReport s.num_prime_factors_histogram) := by
  obtain ⟨hst, -⟩ := sieve_some_inv hmax hs
  subst hst
  refine ⟨?_, histReport_pairwise _⟩
  show histReport (histOf max) = specTrimmedHistogram (histOf max)
  unfold histReport specTrimmedHistogram
  rw [takeWhile_pos_eq_removeTrailingZeros]
  intro a b hb hab hpos
  rw [histOf_length] at hb
  rw [getD_histOf hb] at hpos
  rw [getD_histOf (by omega)]
  exact omegaCount_pos_of_le hab hpos

theorem C8_witness :
    histReport (fullState 10).num_prime_factors_histogram =
      specTrimmedHistogram (fullState 10).num_prime_factors_histogram :=
  (C8_histogram_report 10 (fullState 10) (by omega) rfl).1

/-- C9: after a completed run the histogram bucket counts sum to max - 1:
every number from 2 to max increments exactly one bucket and number 1
increments none. -/
theorem C9_histogram_sum (max : Nat) (s : SieveState) (hmax : 1 ≤ max)
    (hs : sieve max = some s) :
    s.num_prime_factors_histogram.sum = max - 1 := by
  obtain ⟨hst, hbound⟩ := sieve_some_inv hmax hs
  subst hst
  exact histOf_sum hmax hbound

theorem C9_witness : (fullState 10).num_prime_factors_histogram.sum = 10 - 1 :=
  C9_histogram_sum 10 (fullState 10) (by omega) rfl

/-- C10: for every i with 2 ≤ i ≤ max, the stored factorization map of i
is nonempty and every stored exponent is at least 1, and the length of the
map equals the number of distinct prime factors of i (so the histogram
index length - 1 never underflows). -/
theorem C10_factor_map_well_formed (max : Nat) (s : SieveState)
    (hs : sieve max = some s) (i : Nat) (h2 : 2 ≤ i) (hle : i ≤ max) :
    s.prime_factors i ≠ [] ∧ (∀ kv ∈ s.prime_factors i, 1 ≤ kv.2) ∧
      (s.prime_factors i).length = i.primeFactors.card := by
  obtain ⟨hst, -⟩ := sieve_some_inv (by omega) hs
  subst hst
  have hpf : (stateOf max).prime_factors i = factList i := by
    show (if 2 ≤ i ∧ i ≤ max then factList i else []) = factList i
    rw [if_pos ⟨h2, hle⟩]
  rw [hpf]
  refine ⟨factList_ne_nil h2, ?_, factList_length i⟩
  intro kv hkv
  have hkv2 : (kv.1, kv.2) ∈ factList i := by
    rw [Prod.mk.eta]
    exact hkv
  exact factList_exp_pos hkv2

theorem C10_witness :
    (fullState 10).prime_factors 8 ≠ [] ∧
    (∀ kv ∈ (fullState 10).prime_factors 8, 1 ≤ kv.2) ∧
    ((fullState 10).prime_factors 8).length = (8 : Nat).primeFactors.card :=
  C10_factor_map_well_formed 10 (fullState 10) rfl 8 (by omega) (by omega)

end Claims





end BasedNum
